import Mathlib

/-!
Verification of the kitties NFT-marketplace pallet (`src/lib.rs`, `src/impls.rs`).

The pallet state (three storage items plus the external balance ledger) is
embedded as a structure of association lists, and each operation of the
operations layer (`mint`, `do_transfer`, `do_set_price`, `do_buy_kitty`) is
translated line by line into a state-passing function that, on error, returns
the error together with the storage state at the abort point, so that partial
writes are observable.  The transactional dispatch boundary of the runtime and
the external fund-transfer collaborator are not part of the two source files
and are modelled from the specification.
-/

namespace KittiesPallet

/-- Account identifiers (`T::AccountId`), abstracted as naturals. -/
abbrev AccountId := Nat

/-- Kitty DNA / fingerprint (`[u8; 32]`), abstracted as a natural number. -/
abbrev Dna := Nat

/-- Monetary amounts (`BalanceOf<T>`), abstracted as naturals. -/
abbrev Balance := Nat

/-- The `u32::MAX` bound of the `CountForKitties` storage value. -/
def u32Max : Nat := 4294967295

/-- Embedding of `u32::checked_add`: the sum when it fits a `u32`, `none` on overflow. -/
def checkedAdd (a b : Nat) : Option Nat :=
  if a + b ≤ u32Max then some (a + b) else none

/-- Lookup in a `StorageMap` modelled as an association list (first match). -/
def alGet [DecidableEq α] : List (α × β) → α → Option β
  | [], _ => none
  | (k, v) :: rest, a => if k = a then some v else alGet rest a

/-- Lookup with a default value (`QueryKind = ValueQuery`). -/
def alGetD [DecidableEq α] (m : List (α × β)) (a : α) (d : β) : β :=
  (alGet m a).getD d

/-- Embedding of `StorageMap::insert`: overwrite the entry for the key if present,
otherwise add a fresh entry. -/
def alInsert [DecidableEq α] : List (α × β) → α → β → List (α × β)
  | [], a, v => [(a, v)]
  | (k, w) :: rest, a, v =>
      if k = a then (a, v) :: rest else (k, w) :: alInsert rest a v

/-- Embedding of `Vec::swap_remove(i)`: overwrite index `i` with the last element, then
drop the last element. -/
def swapRemove (l : List α) (i : Nat) : List α :=
  match l.getLast? with
  | none => l
  | some x => (l.set i x).dropLast

/-- The `Kitty` struct of `src/lib.rs`. -/
structure Kitty where
  dna : Dna
  owner : AccountId
  price : Option Balance
deriving DecidableEq, Repr

/-- The pallet storage (`CountForKitties`, `Kitties`, `KittiesOwned`)
together with the balance ledger of the fund-transfer collaborator. -/
structure State where
  countForKitties : Nat
  kitties : List (Dna × Kitty)
  kittiesOwned : List (AccountId × List Dna)
  balances : List (AccountId × Balance)
deriving DecidableEq, Repr

/-- The events of `src/lib.rs` (`src` / `dst` stand for the source's
`from` / `to`, which are reserved words here). -/
inductive Event where
  | Created (owner : AccountId)
  | Transferred (src dst : AccountId) (kitty_id : Dna)
  | PriceSet (owner : AccountId) (kitty_id : Dna) (new_price : Option Balance)
  | Sold (buyer : AccountId) (kitty_id : Dna) (price : Balance)
deriving DecidableEq, Repr

/-- The pallet errors of `src/lib.rs`, plus the propagated error of the
fund-transfer collaborator (insufficient balance). -/
inductive KittyError where
  | TooManyKitties
  | DuplicateKitty
  | TooManyOwned
  | TransferToSelf
  | NoKitty
  | NotOwner
  | NotForSale
  | MaxPriceTooLow
  | InsufficientBalance
deriving DecidableEq, Repr

/-- Raw outcome of an operation: on error, the state at the abort point is
kept, so that a write made before the error remains observable. -/
abbrev OpResult := Sum (KittyError × State) (State × List Event)

/-- Embedding of `Pallet::mint` of `src/impls.rs` (lines 27-50), translated line by line:
duplicate check, checked increment of the counter, bounded append to the
owner's list, then the three storage writes and the `Created` event. -/
def mint (owner : AccountId) (dna : Dna) (s : State) : OpResult :=
  let kitty : Kitty := { dna := dna, owner := owner, price := none }
  if (alGet s.kitties dna).isSome then .inl (.DuplicateKitty, s)
  else
    let current_count := s.countForKitties
    match checkedAdd current_count 1 with
    | none => .inl (.TooManyKitties, s)
    | some new_count =>
      let owned := alGetD s.kittiesOwned owner []
      if 100 ≤ owned.length then .inl (.TooManyOwned, s)
      else
        let s1 : State :=
          { s with kittiesOwned := alInsert s.kittiesOwned owner (owned ++ [dna]) }
        let s2 : State := { s1 with kitties := alInsert s1.kitties dna kitty }
        let s3 : State := { s2 with countForKitties := new_count }
        .inr (s3, [.Created owner])

/-- Embedding of `Pallet::do_transfer` of `src/impls.rs` (lines 53-87), translated line by
line (`src` / `dst` are the source's `from` / `to`): self-transfer check,
registry lookup, ownership check, owner/price update, bounded push into the
destination list, swap-removal from the source list, three storage writes and
the `Transferred` event. -/
def do_transfer (src dst : AccountId) (kitty_id : Dna) (s : State) : OpResult :=
  if src = dst then .inl (.TransferToSelf, s)
  else
    match alGet s.kitties kitty_id with
    | none => .inl (.NoKitty, s)
    | some kitty =>
      if kitty.owner ≠ src then .inl (.NotOwner, s)
      else
        let kitty' : Kitty := { kitty with owner := dst, price := none }
        let to_owned := alGetD s.kittiesOwned dst []
        if 100 ≤ to_owned.length then .inl (.TooManyOwned, s)
        else
          let to_owned' := to_owned ++ [kitty_id]
          let from_owned := alGetD s.kittiesOwned src []
          match from_owned.findIdx? (fun id => id == kitty_id) with
          | none => .inl (.NoKitty, s)
          | some ind =>
            let from_owned' := swapRemove from_owned ind
            let s1 : State :=
              { s with kitties := alInsert s.kitties kitty_id kitty' }
            let s2 : State :=
              { s1 with kittiesOwned := alInsert s1.kittiesOwned dst to_owned' }
            let s3 : State :=
              { s2 with kittiesOwned := alInsert s2.kittiesOwned src from_owned' }
            .inr (s3, [.Transferred src dst kitty_id])

/-- Embedding of `Pallet::do_set_price` of `src/impls.rs` (lines 90-108): registry lookup,
ownership check, price overwrite, one storage write and the `PriceSet`
event. -/
def do_set_price (caller : AccountId) (kitty_id : Dna) (new_price : Option Balance)
    (s : State) : OpResult :=
  match alGet s.kitties kitty_id with
  | none => .inl (.NoKitty, s)
  | some kitty =>
    if kitty.owner ≠ caller then .inl (.NotOwner, s)
    else
      let kitty' : Kitty := { kitty with price := new_price }
      .inr ({ s with kitties := alInsert s.kitties kitty_id kitty' },
            [.PriceSet caller kitty_id new_price])

/-- Modelled from the spec: the external fund-transfer collaborator
(`T::NativeBalance::transfer` with `Preservation::Preserve`), which is not
part of the two source files.  Per the spec it performs an atomic balance
movement of exactly `amount` from `src` to `dst` and fails cleanly when the
payer's funds are insufficient under a preserve-minimum-balance policy; the
minimum the payer must keep is the parameter `minKeep`. -/
def transferFunds (minKeep : Nat) (src dst : AccountId) (amount : Balance)
    (s : State) : Sum (KittyError × State) State :=
  let bsrc := alGetD s.balances src 0
  if bsrc < amount + minKeep then .inl (.InsufficientBalance, s)
  else
    let s1 : State := { s with balances := alInsert s.balances src (bsrc - amount) }
    let bdst := alGetD s1.balances dst 0
    .inr { s1 with balances := alInsert s1.balances dst (bdst + amount) }

/-- Embedding of `Pallet::do_buy_kitty` of `src/impls.rs` (lines 111-134): registry
lookup, for-sale check, maximum-price check, fund transfer of the listed
price from buyer to owner, inner ownership transfer, and the `Sold` event
carrying the listed price.  Note the fund transfer is performed before the
inner `do_transfer`, so in the raw semantics an inner-transfer failure leaves
the fund movement in the abort state. -/
def do_buy_kitty (minKeep : Nat) (buyer : AccountId) (kitty_id : Dna)
    (price : Balance) (s : State) : OpResult :=
  match alGet s.kitties kitty_id with
  | none => .inl (.NoKitty, s)
  | some kitty =>
    match kitty.price with
    | none => .inl (.NotForSale, s)
    | some real_price =>
      if price < real_price then .inl (.MaxPriceTooLow, s)
      else
        match transferFunds minKeep buyer kitty.owner real_price s with
        | .inl e => .inl e
        | .inr s1 =>
          match do_transfer kitty.owner buyer kitty_id s1 with
          | .inl e => .inl e
          | .inr (s2, evs) =>
            .inr (s2, evs ++ [.Sold buyer kitty_id real_price])

/-- Modelled from the spec: the all-or-nothing dispatch boundary of the
surrounding runtime ("writes back both stores together or not at all"; a
previous operation is observed "fully completed (committed or fully rolled
back)").  It is not part of the two source files.  On error every
speculative write is discarded and the pre-call state is returned. -/
def dispatch (f : State → OpResult) (s : State) : OpResult :=
  match f s with
  | .inl (e, _) => .inl (e, s)
  | .inr r => .inr r

/-- The four public operations of the pallet, with the ambient inputs each
dispatchable draws from its environment (`create_kitty` obtains its dna from
`gen_dna`, which hashes ambient chain state; here the dna is an input). -/
inductive Op where
  | create (who : AccountId) (dna : Dna)
  | transfer (who dst : AccountId) (kitty_id : Dna)
  | setPrice (who : AccountId) (kitty_id : Dna) (new_price : Option Balance)
  | buy (who : AccountId) (kitty_id : Dna) (max_price : Balance)
deriving DecidableEq, Repr

/-- The raw (pre-dispatch) semantics of each public operation, as written in
`src/lib.rs` lines 90-132. -/
def rawStep (minKeep : Nat) : Op → State → OpResult
  | .create who dna => mint who dna
  | .transfer who dst kitty_id => do_transfer who dst kitty_id
  | .setPrice who kitty_id new_price => do_set_price who kitty_id new_price
  | .buy who kitty_id max_price => do_buy_kitty minKeep who kitty_id max_price

/-- One public operation as observed by a caller: the raw semantics behind
the (spec-modelled) transactional dispatch boundary. -/
def step (minKeep : Nat) (op : Op) (s : State) : OpResult :=
  dispatch (rawStep minKeep op) s

/-- States reachable from a genesis state (empty kitty storage, arbitrary
balance ledger) by successful public operations; a failed operation leaves
the observable state unchanged (`dispatch`), so it is omitted. -/
inductive Reachable : State → Prop where
  | init (bal : List (AccountId × Balance)) :
      Reachable { countForKitties := 0, kitties := [], kittiesOwned := [], balances := bal }
  | next (s s' : State) (minKeep : Nat) (op : Op) (ev : List Event) :
      Reachable s → step minKeep op s = .inr (s', ev) → Reachable s'

/-- Run a sequence of mints, stopping at the first failure. -/
def mintSeq : List (AccountId × Dna) → State → Option State
  | [], s => some s
  | (o, d) :: rest, s =>
    match mint o d s with
    | .inl _ => none
    | .inr (s', _) => mintSeq rest s'

/-- Total number of occurrences of a fingerprint across all entries of the
Ownership Index. -/
def sumCounts (m : List (AccountId × List Dna)) (d : Dna) : Nat :=
  (m.map (fun p => p.2.count d)).sum

/-- The inductive consistency invariant of the two kitty stores: association
keys are unique, every fingerprint listed in the Ownership Index is in the
registry, and every registry fingerprint occurs exactly once across the whole
Ownership Index, in its owner's entry. -/
structure GoodState (s : State) : Prop where
  kkeys : (s.kitties.map Prod.fst).Nodup
  okeys : (s.kittiesOwned.map Prod.fst).Nodup
  owned_reg : ∀ d, 0 < sumCounts s.kittiesOwned d → (alGet s.kitties d).isSome = true
  reg_owned : ∀ d k, alGet s.kitties d = some k →
      sumCounts s.kittiesOwned d = 1 ∧ d ∈ alGetD s.kittiesOwned k.owner []

/-- The genesis state with an empty balance ledger. -/
def genesis0 : State :=
  { countForKitties := 0, kitties := [], kittiesOwned := [], balances := [] }

/-- A one-kitty example state: kitty `7` owned by account `1`, unlisted. -/
def kEx : Kitty := { dna := 7, owner := 1, price := none }

/-- The state holding just `kEx` (the result of minting it at genesis). -/
def sEx : State :=
  { countForKitties := 1, kitties := [(7, kEx)], kittiesOwned := [(1, [7])],
    balances := [] }

/-- Kitty `7` owned by account `1`, listed at price `50`. -/
def kListed : Kitty := { dna := 7, owner := 1, price := some 50 }

/-- A state where `kListed` is for sale and both accounts hold funds. -/
def sListed : State :=
  { countForKitties := 1, kitties := [(7, kListed)], kittiesOwned := [(1, [7])],
    balances := [(1, 100), (2, 100)] }

/-- One hundred distinct fingerprints. -/
def l100 : List Dna := List.range 100

/-- A state where account `1`'s Ownership Index entry is at full capacity and
kitty `5` belongs to account `2`. -/
def sFull : State :=
  { countForKitties := 101,
    kitties := [(5, { dna := 5, owner := 2, price := none })],
    kittiesOwned := [(1, l100), (2, [5])], balances := [] }

/-- The state after minting kitty `5` for account `1` and kitty `9` for
account `2` at genesis. -/
def sTwo : State :=
  { countForKitties := 2,
    kitties := [(5, { dna := 5, owner := 1, price := none }),
                (9, { dna := 9, owner := 2, price := none })],
    kittiesOwned := [(1, [5]), (2, [9])], balances := [] }

/-- The state after transferring kitty `7` from account `1` to account `2`
starting from `sEx`. -/
def sRound1 : State :=
  { countForKitties := 1, kitties := [(7, { dna := 7, owner := 2, price := none })],
    kittiesOwned := [(1, []), (2, [7])], balances := [] }

/-- The state after transferring kitty `7` back from account `2` to
account `1` starting from `sRound1`. -/
def sRound2 : State :=
  { countForKitties := 1, kitties := [(7, { dna := 7, owner := 1, price := none })],
    kittiesOwned := [(1, [7]), (2, [])], balances := [] }

/-- The state after account `2` buys kitty `7` for `50` in `sListed`. -/
def sSold : State :=
  { countForKitties := 1, kitties := [(7, { dna := 7, owner := 2, price := none })],
    kittiesOwned := [(1, []), (2, [7])], balances := [(1, 150), (2, 50)] }

/-! ### Association-list lemmas -/

theorem alGet_alInsert_self [DecidableEq α] (m : List (α × β)) (a : α) (v : β) :
    alGet (alInsert m a v) a = some v := by
  induction m with
  | nil => simp [alInsert, alGet]
  | cons p rest ih =>
    obtain ⟨k, w⟩ := p
    by_cases h : k = a
    · simp [alInsert, alGet, h]
    · simp [alInsert, alGet, h, ih]

theorem alGet_alInsert_ne [DecidableEq α] (m : List (α × β)) (a b : α) (v : β)
    (h : b ≠ a) : alGet (alInsert m a v) b = alGet m b := by
  induction m with
  | nil => simp [alInsert, alGet, Ne.symm h]
  | cons p rest ih =>
    obtain ⟨k, w⟩ := p
    by_cases hk : k = a
    · subst hk
      simp [alInsert, alGet, Ne.symm h]
    · simp only [alInsert, if_neg hk, alGet]
      by_cases hkb : k = b <;> simp [hkb, ih]

theorem alGetD_alInsert_self [DecidableEq α] (m : List (α × β)) (a : α) (v d : β) :
    alGetD (alInsert m a v) a d = v := by
  simp [alGetD, alGet_alInsert_self]

theorem alGetD_alInsert_ne [DecidableEq α] (m : List (α × β)) (a b : α) (v d : β)
    (h : b ≠ a) : alGetD (alInsert m a v) b d = alGetD m b d := by
  simp [alGetD, alGet_alInsert_ne m a b v h]

theorem length_alInsert_isSome [DecidableEq α] (m : List (α × β)) (a : α) (v : β)
    (h : (alGet m a).isSome = true) : (alInsert m a v).length = m.length := by
  induction m with
  | nil => simp [alGet] at h
  | cons p rest ih =>
    obtain ⟨k, w⟩ := p
    by_cases hk : k = a
    · simp [alInsert, hk]
    · simp only [alGet, if_neg hk] at h
      simp [alInsert, hk, ih h]

theorem length_alInsert_none [DecidableEq α] (m : List (α × β)) (a : α) (v : β)
    (h : alGet m a = none) : (alInsert m a v).length = m.length + 1 := by
  induction m with
  | nil => simp [alInsert]
  | cons p rest ih =>
    obtain ⟨k, w⟩ := p
    by_cases hk : k = a
    · simp [alGet, hk] at h
    · simp only [alGet, if_neg hk] at h
      simp [alInsert, hk, ih h]

theorem mem_keys_alInsert [DecidableEq α] (m : List (α × β)) (a b : α) (v : β)
    (h : b ∈ (alInsert m a v).map Prod.fst) : b = a ∨ b ∈ m.map Prod.fst := by
  induction m with
  | nil => simpa [alInsert] using h
  | cons p rest ih =>
    obtain ⟨k, w⟩ := p
    by_cases hk : k = a
    · subst hk
      rcases (by simpa [alInsert] using h : b = k ∨ b ∈ rest.map Prod.fst) with h' | h'
      · exact Or.inl h'
      · exact Or.inr (by simp [h'])
    · rcases (by simpa [alInsert, hk] using h : b = k ∨ b ∈ (alInsert rest a v).map Prod.fst)
        with h' | h'
      · exact Or.inr (by simp [h'])
      · rcases ih h' with h'' | h''
        · exact Or.inl h''
        · exact Or.inr (by simp [h''])

theorem nodup_keys_alInsert [DecidableEq α] (m : List (α × β)) (a : α) (v : β)
    (h : (m.map Prod.fst).Nodup) : ((alInsert m a v).map Prod.fst).Nodup := by
  induction m with
  | nil => simp [alInsert]
  | cons p rest ih =>
    obtain ⟨k, w⟩ := p
    simp only [List.map_cons, List.nodup_cons] at h
    by_cases hk : k = a
    · subst hk
      simpa [alInsert] using h
    · simp only [alInsert, if_neg hk, List.map_cons, List.nodup_cons]
      refine ⟨fun hmem => ?_, ih h.2⟩
      rcases mem_keys_alInsert rest a k v hmem with h' | h'
      · exact hk h'
      · exact h.1 h'

theorem mem_alInsert [DecidableEq α] (m : List (α × β)) (a : α) (v : β)
    (p : α × β) (h : p ∈ alInsert m a v) : p = (a, v) ∨ p ∈ m := by
  induction m with
  | nil => simpa [alInsert] using h
  | cons q rest ih =>
    obtain ⟨k, w⟩ := q
    by_cases hk : k = a
    · rcases (by simpa [alInsert, hk] using h : p = (a, v) ∨ p ∈ rest) with h' | h'
      · exact Or.inl h'
      · exact Or.inr (by simp [h'])
    · rcases (by simpa [alInsert, hk] using h : p = (k, w) ∨ p ∈ alInsert rest a v)
        with h' | h'
      · exact Or.inr (by simp [h'])
      · rcases ih h' with h'' | h''
        · exact Or.inl h''
        · exact Or.inr (by simp [h''])

theorem alGet_mem [DecidableEq α] (m : List (α × β)) (a : α) (v : β)
    (h : alGet m a = some v) : (a, v) ∈ m := by
  induction m with
  | nil => simp [alGet] at h
  | cons q rest ih =>
    obtain ⟨k, w⟩ := q
    by_cases hk : k = a
    · subst hk
      have hw : w = v := by simpa [alGet] using h
      subst hw
      simp
    · simp only [alGet, if_neg hk] at h
      simp [ih h]

/-! ### Lemmas about `swap_remove` and `position` -/

theorem length_swapRemove_le (l : List α) (i : Nat) :
    (swapRemove l i).length ≤ l.length := by
  cases hl : l.getLast? with
  | none => simp [swapRemove, hl]
  | some x =>
    simp only [swapRemove, hl, List.length_dropLast, List.length_set]
    omega

theorem getLast?_drop_of_lt (l : List α) (n : Nat) (h : n < l.length) :
    (l.drop n).getLast? = l.getLast? := by
  induction l generalizing n with
  | nil => simp at h
  | cons a t ih =>
    cases n with
    | zero => rfl
    | succ n =>
      have hn : n < t.length := by simpa using h
      have ht : t ≠ [] := List.ne_nil_of_length_pos (Nat.lt_of_le_of_lt (Nat.zero_le n) hn)
      obtain ⟨b, t', rfl⟩ : ∃ b t', t = b :: t' := by
        cases t with
        | nil => exact absurd rfl ht
        | cons b t' => exact ⟨b, t', rfl⟩
      rw [List.getLast?_cons_cons, List.drop_succ_cons, ih n hn]

theorem swapRemove_eq_of_ne_nil (l : List α) (i : Nat) (hne : l ≠ []) :
    swapRemove l i = (l.set i (l.getLast hne)).dropLast := by
  rw [swapRemove, List.getLast?_eq_getLast l hne]

theorem count_swapRemove (l : List Dna) (i : Nat) (h : i < l.length) (x : Dna) :
    (swapRemove l i).count x + (if l.get ⟨i, h⟩ = x then 1 else 0) = l.count x := by
  have hne : l ≠ [] := List.ne_nil_of_length_pos (Nat.lt_of_le_of_lt (Nat.zero_le i) h)
  rw [swapRemove_eq_of_ne_nil l i hne]
  rw [List.set_eq_take_append_cons_drop, if_pos h]
  have hsplit : l.count x =
      (l.take i).count x + (if l.get ⟨i, h⟩ = x then 1 else 0)
        + (l.drop (i + 1)).count x := by
    conv_lhs => rw [← List.take_append_drop i l, List.drop_eq_get_cons h]
    rw [List.count_append, List.count_cons]
    simp only [beq_iff_eq]
    omega
  by_cases hi : i + 1 < l.length
  · have hD : l.drop (i + 1) ≠ [] :=
      List.ne_nil_of_length_pos (by rw [List.length_drop]; omega)
    rw [List.dropLast_append_of_ne_nil _ (by simp [hD]),
        List.dropLast_cons_of_ne_nil hD]
    have hlast : (l.drop (i + 1)).getLast hD = l.getLast hne := by
      have hq := getLast?_drop_of_lt l (i + 1) hi
      rw [List.getLast?_eq_getLast _ hD, List.getLast?_eq_getLast l hne] at hq
      exact Option.some.inj hq
    have hD2 : (l.drop (i + 1)).count x =
        ((l.drop (i + 1)).dropLast).count x
          + (if l.getLast hne = x then 1 else 0) := by
      conv_lhs => rw [← List.dropLast_append_getLast hD]
      rw [List.count_append, List.count_singleton, hlast]
      simp only [beq_iff_eq]
    rw [List.count_append, List.count_cons]
    simp only [beq_iff_eq]
    omega
  · have hD : l.drop (i + 1) = [] := by
      rw [List.drop_eq_nil_iff]
      omega
    rw [hD, List.dropLast_concat]
    rw [hsplit, hD]
    simp

theorem mem_swapRemove_of_ne (l : List Dna) (i : Nat) (h : i < l.length) (x : Dna)
    (hx : x ∈ l) (hne : l.get ⟨i, h⟩ ≠ x) : x ∈ swapRemove l i := by
  have hc := count_swapRemove l i h x
  rw [if_neg hne] at hc
  have : 0 < l.count x := List.count_pos_iff.mpr hx
  have : 0 < (swapRemove l i).count x := by omega
  exact List.count_pos_iff.mp this

theorem findIdx?_some_get {p : α → Bool} :
    ∀ (l : List α) (i j : Nat), l.findIdx? p j = some i →
      j ≤ i ∧ ∃ h : i - j < l.length, p (l.get ⟨i - j, h⟩) = true := by
  intro l
  induction l with
  | nil => intro i j hf; simp [List.findIdx?_nil] at hf
  | cons a t ih =>
    intro i j hf
    rw [List.findIdx?_cons] at hf
    by_cases ha : p a = true
    · rw [if_pos ha] at hf
      obtain rfl : j = i := Option.some.inj hf
      exact ⟨le_rfl, by simpa using ha⟩
    · rw [if_neg ha] at hf
      obtain ⟨hji, hlt, hp⟩ := ih i (j + 1) hf
      refine ⟨by omega, ?_⟩
      have hij : i - j = (i - (j + 1)) + 1 := by omega
      have hlt' : i - j < (a :: t).length := by
        simp only [List.length_cons]
        omega
      refine ⟨hlt', ?_⟩
      have : (a :: t).get ⟨i - j, hlt'⟩ = t.get ⟨i - (j + 1), hlt⟩ := by
        simp only [hij]
        exact List.get_cons_succ
      rw [this]
      exact hp

/-! ### Lemmas about `sumCounts` -/

theorem sumCounts_cons (k : AccountId) (w : List Dna)
    (rest : List (AccountId × List Dna)) (d : Dna) :
    sumCounts ((k, w) :: rest) d = w.count d + sumCounts rest d := by
  simp [sumCounts]

theorem sumCounts_alInsert (m : List (AccountId × List Dna)) (a : AccountId)
    (l : List Dna) (d : Dna) :
    sumCounts (alInsert m a l) d + (alGetD m a []).count d
      = sumCounts m d + l.count d := by
  induction m with
  | nil => simp [alInsert, sumCounts, alGetD, alGet]
  | cons p rest ih =>
    obtain ⟨k, w⟩ := p
    by_cases hk : k = a
    · simp only [alInsert, if_pos hk, sumCounts_cons]
      have hg : alGetD ((k, w) :: rest) a [] = w := by simp [alGetD, alGet, hk]
      rw [hg]
      omega
    · simp only [alInsert, if_neg hk, sumCounts_cons]
      have hg : alGetD ((k, w) :: rest) a [] = alGetD rest a [] := by
        simp [alGetD, alGet, hk]
      rw [hg]
      omega

theorem alGetD_count_le_sumCounts (m : List (AccountId × List Dna)) (a : AccountId)
    (d : Dna) : (alGetD m a []).count d ≤ sumCounts m d := by
  cases hg : alGet m a with
  | none => simp [alGetD, hg]
  | some l =>
    have hm : (a, l) ∈ m := alGet_mem m a l hg
    have hmem : l.count d ∈ m.map (fun p => p.2.count d) :=
      List.mem_map.mpr ⟨(a, l), hm, rfl⟩
    have := List.single_le_sum (l := m.map (fun p => p.2.count d))
      (fun x _ => Nat.zero_le x) _ hmem
    simpa [alGetD, hg, sumCounts] using this

theorem mem_alGetD_sumCounts_pos (m : List (AccountId × List Dna)) (a : AccountId)
    (d : Dna) (h : d ∈ alGetD m a []) : 0 < sumCounts m d := by
  have h1 : 0 < (alGetD m a []).count d := List.count_pos_iff.mpr h
  have h2 := alGetD_count_le_sumCounts m a d
  omega

/-! ### Inversion lemmas for the operations -/

theorem mint_inr (o : AccountId) (d : Dna) (s s' : State) (ev : List Event)
    (h : mint o d s = .inr (s', ev)) :
    alGet s.kitties d = none ∧ s.countForKitties + 1 ≤ u32Max ∧
    (alGetD s.kittiesOwned o []).length < 100 ∧
    s' = { s with
      countForKitties := s.countForKitties + 1,
      kitties := alInsert s.kitties d { dna := d, owner := o, price := none },
      kittiesOwned := alInsert s.kittiesOwned o (alGetD s.kittiesOwned o [] ++ [d]) } ∧
    ev = [Event.Created o] := by
  cases hd : alGet s.kitties d with
  | some k => simp [mint, hd] at h
  | none =>
    by_cases h2 : s.countForKitties + 1 ≤ u32Max
    · by_cases h3 : 100 ≤ (alGetD s.kittiesOwned o []).length
      · simp [mint, checkedAdd, hd, h2, h3] at h
      · have hval : mint o d s = Sum.inr
            ({ s with
               countForKitties := s.countForKitties + 1,
               kitties := alInsert s.kitties d { dna := d, owner := o, price := none },
               kittiesOwned :=
                 alInsert s.kittiesOwned o (alGetD s.kittiesOwned o [] ++ [d]) },
             [Event.Created o]) := by
          simp [mint, checkedAdd, hd, h2, h3]
        rw [hval] at h
        simp only [Sum.inr.injEq, Prod.mk.injEq] at h
        exact ⟨rfl, h2, by omega, h.1.symm, h.2.symm⟩
    · simp [mint, checkedAdd, hd, h2] at h

theorem do_transfer_inr (a b : AccountId) (kid : Dna) (s s' : State) (ev : List Event)
    (h : do_transfer a b kid s = .inr (s', ev)) :
    ∃ kitty ind,
      a ≠ b ∧ alGet s.kitties kid = some kitty ∧ kitty.owner = a ∧
      (alGetD s.kittiesOwned b []).length < 100 ∧
      (alGetD s.kittiesOwned a []).findIdx? (fun id => id == kid) = some ind ∧
      s' = { s with
        kitties := alInsert s.kitties kid { kitty with owner := b, price := none },
        kittiesOwned :=
          alInsert (alInsert s.kittiesOwned b (alGetD s.kittiesOwned b [] ++ [kid])) a
            (swapRemove (alGetD s.kittiesOwned a []) ind) } ∧
      ev = [Event.Transferred a b kid] := by
  by_cases hab : a = b
  · simp [do_transfer, hab] at h
  · cases hd : alGet s.kitties kid with
    | none => simp [do_transfer, hab, hd] at h
    | some kitty =>
      by_cases how : kitty.owner = a
      · by_cases hcap : 100 ≤ (alGetD s.kittiesOwned b []).length
        · simp [do_transfer, hab, hd, how, hcap] at h
        · cases hidx : (alGetD s.kittiesOwned a []).findIdx? (fun id => id == kid) with
          | none => simp [do_transfer, hab, hd, how, hcap, hidx] at h
          | some ind =>
            have hval : do_transfer a b kid s = Sum.inr
                ({ s with
                   kitties := alInsert s.kitties kid { kitty with owner := b, price := none },
                   kittiesOwned :=
                     alInsert
                       (alInsert s.kittiesOwned b (alGetD s.kittiesOwned b [] ++ [kid])) a
                       (swapRemove (alGetD s.kittiesOwned a []) ind) },
                 [Event.Transferred a b kid]) := by
              simp [do_transfer, hab, hd, how, hcap, hidx]
            rw [hval] at h
            simp only [Sum.inr.injEq, Prod.mk.injEq] at h
            exact ⟨kitty, ind, hab, rfl, how, by omega, rfl, h.1.symm, h.2.symm⟩
      · simp [do_transfer, hab, hd, how] at h

theorem do_set_price_inr (c : AccountId) (kid : Dna) (p : Option Balance)
    (s s' : State) (ev : List Event) (h : do_set_price c kid p s = .inr (s', ev)) :
    ∃ kitty,
      alGet s.kitties kid = some kitty ∧ kitty.owner = c ∧
      s' = { s with kitties := alInsert s.kitties kid { kitty with price := p } } ∧
      ev = [Event.PriceSet c kid p] := by
  cases hd : alGet s.kitties kid with
  | none => simp [do_set_price, hd] at h
  | some kitty =>
    by_cases how : kitty.owner = c
    · have hval : do_set_price c kid p s = Sum.inr
          ({ s with kitties := alInsert s.kitties kid { kitty with price := p } },
           [Event.PriceSet c kid p]) := by
        simp [do_set_price, hd, how]
      rw [hval] at h
      simp only [Sum.inr.injEq, Prod.mk.injEq] at h
      exact ⟨kitty, rfl, how, h.1.symm, h.2.symm⟩
    · simp [do_set_price, hd, how] at h

theorem transferFunds_inr (mk : Nat) (a b : AccountId) (amt : Balance) (s s1 : State)
    (h : transferFunds mk a b amt s = .inr s1) :
    amt + mk ≤ alGetD s.balances a 0 ∧
    s1 =
      { s with
        balances :=
          alInsert (alInsert s.balances a (alGetD s.balances a 0 - amt)) b
            (alGetD (alInsert s.balances a (alGetD s.balances a 0 - amt)) b 0 + amt) } := by
  by_cases hb : alGetD s.balances a 0 < amt + mk
  · simp [transferFunds, hb] at h
  · have hval : transferFunds mk a b amt s = Sum.inr
        { s with
          balances :=
            alInsert (alInsert s.balances a (alGetD s.balances a 0 - amt)) b
              (alGetD (alInsert s.balances a (alGetD s.balances a 0 - amt)) b 0 + amt) } := by
      simp [transferFunds, hb]
    rw [hval] at h
    exact ⟨Nat.le_of_not_lt hb, (Sum.inr.inj h).symm⟩

theorem do_buy_kitty_inr (mk : Nat) (buyer : AccountId) (kid : Dna) (mp : Balance)
    (s s' : State) (ev : List Event)
    (h : do_buy_kitty mk buyer kid mp s = .inr (s', ev)) :
    ∃ kitty rp s1 ev2,
      alGet s.kitties kid = some kitty ∧ kitty.price = some rp ∧ rp ≤ mp ∧
      transferFunds mk buyer kitty.owner rp s = .inr s1 ∧
      do_transfer kitty.owner buyer kid s1 = .inr (s', ev2) ∧
      ev = ev2 ++ [Event.Sold buyer kid rp] := by
  cases hd : alGet s.kitties kid with
  | none => simp [do_buy_kitty, hd] at h
  | some kitty =>
    cases hp : kitty.price with
    | none => simp [do_buy_kitty, hd, hp] at h
    | some rp =>
      by_cases hmp : mp < rp
      · simp [do_buy_kitty, hd, hp, hmp] at h
      · cases hf : transferFunds mk buyer kitty.owner rp s with
        | inl e => simp [do_buy_kitty, hd, hp, hmp, hf] at h
        | inr s1 =>
          cases ht : do_transfer kitty.owner buyer kid s1 with
          | inl e => simp [do_buy_kitty, hd, hp, hmp, hf, ht] at h
          | inr r =>
            obtain ⟨s2, ev2⟩ := r
            have hval : do_buy_kitty mk buyer kid mp s =
                Sum.inr (s2, ev2 ++ [Event.Sold buyer kid rp]) := by
              simp [do_buy_kitty, hd, hp, hmp, hf, ht]
            rw [hval] at h
            simp only [Sum.inr.injEq, Prod.mk.injEq] at h
            refine ⟨kitty, rp, s1, ev2, rfl, hp, Nat.le_of_not_lt hmp, hf, ?_, h.2.symm⟩
            rw [← h.1]
            exact ht

theorem step_inr (mk : Nat) (op : Op) (s s' : State) (ev : List Event) :
    step mk op s = .inr (s', ev) ↔ rawStep mk op s = .inr (s', ev) := by
  unfold step dispatch
  cases hr : rawStep mk op s with
  | inl e =>
    obtain ⟨e1, s1⟩ := e
    simp
  | inr r => simp

theorem findIdx?_some_get0 {p : α → Bool} (l : List α) (i : Nat)
    (h : l.findIdx? p = some i) : ∃ hlt : i < l.length, p (l.get ⟨i, hlt⟩) = true := by
  obtain ⟨-, hlt, hp⟩ := findIdx?_some_get l i 0 h
  have hlt' : i < l.length := by simpa using hlt
  refine ⟨hlt', ?_⟩
  have heq : (⟨i - 0, hlt⟩ : Fin l.length) = ⟨i, hlt'⟩ := by
    ext
    simp
  rw [← heq]
  exact hp

/-! ### Preservation of the consistency invariant (registry vs Ownership Index) -/

theorem goodState_mint (o : AccountId) (d : Dna) (s s' : State) (ev : List Event)
    (hg : GoodState s) (h : mint o d s = .inr (s', ev)) : GoodState s' := by
  obtain ⟨hnone, hcnt, hcap, hs', hev⟩ := mint_inr o d s s' ev h
  subst hs'
  have hsum : ∀ x, sumCounts (alInsert s.kittiesOwned o (alGetD s.kittiesOwned o [] ++ [d])) x
      = sumCounts s.kittiesOwned x + (if d = x then 1 else 0) := by
    intro x
    have hq := sumCounts_alInsert s.kittiesOwned o (alGetD s.kittiesOwned o [] ++ [d]) x
    rw [List.count_append, List.count_singleton] at hq
    by_cases hdx : d = x
    · simp only [hdx, beq_self_eq_true, if_true] at hq ⊢
      omega
    · have hbx : (d == x) = false := by simp [hdx]
      simp only [hbx, Bool.false_eq_true, if_false, if_neg hdx] at hq ⊢
      omega
  have hzero : sumCounts s.kittiesOwned d = 0 := by
    by_contra hz
    have hpos : 0 < sumCounts s.kittiesOwned d := Nat.pos_of_ne_zero hz
    have hq := hg.owned_reg d hpos
    rw [hnone] at hq
    simp at hq
  refine ⟨nodup_keys_alInsert _ _ _ hg.kkeys, nodup_keys_alInsert _ _ _ hg.okeys, ?_, ?_⟩
  · intro x hx
    rw [hsum x] at hx
    by_cases hdx : d = x
    · subst hdx
      rw [alGet_alInsert_self]
      rfl
    · rw [if_neg hdx] at hx
      have hx0 : 0 < sumCounts s.kittiesOwned x := by omega
      rw [alGet_alInsert_ne _ _ _ _ (fun hh => hdx hh.symm)]
      exact hg.owned_reg x hx0
  · intro x k hk'
    by_cases hdx : x = d
    · subst hdx
      rw [alGet_alInsert_self] at hk'
      have hkk : k = { dna := x, owner := o, price := none } := (Option.some.inj hk').symm
      subst hkk
      constructor
      · rw [hsum x]
        simp [hzero]
      · rw [alGetD_alInsert_self]
        simp
    · rw [alGet_alInsert_ne _ _ _ _ hdx] at hk'
      obtain ⟨hs1, hm1⟩ := hg.reg_owned x k hk'
      constructor
      · rw [hsum x, if_neg (fun hh => hdx hh.symm)]
        omega
      · by_cases hko : k.owner = o
        · rw [hko, alGetD_alInsert_self]
          rw [hko] at hm1
          exact List.mem_append.mpr (Or.inl hm1)
        · rw [alGetD_alInsert_ne _ _ _ _ _ hko]
          exact hm1

theorem goodState_do_transfer (a b : AccountId) (kid : Dna) (s s' : State)
    (ev : List Event) (hg : GoodState s) (h : do_transfer a b kid s = .inr (s', ev)) :
    GoodState s' := by
  obtain ⟨kitty, ind, hab, hk, how, hcap, hidx, hs', hev⟩ :=
    do_transfer_inr a b kid s s' ev h
  subst hs'
  obtain ⟨hlt, hgetb⟩ := findIdx?_some_get0 (alGetD s.kittiesOwned a []) ind hidx
  have hget : (alGetD s.kittiesOwned a []).get ⟨ind, hlt⟩ = kid := by
    simpa [beq_iff_eq] using hgetb
  have hS1 : ∀ x,
      sumCounts (alInsert s.kittiesOwned b (alGetD s.kittiesOwned b [] ++ [kid])) x
        = sumCounts s.kittiesOwned x + (if kid = x then 1 else 0) := by
    intro x
    have hq := sumCounts_alInsert s.kittiesOwned b
      (alGetD s.kittiesOwned b [] ++ [kid]) x
    rw [List.count_append, List.count_singleton] at hq
    by_cases hdx : kid = x
    · simp only [hdx, beq_self_eq_true, if_true] at hq ⊢
      omega
    · have hbx : (kid == x) = false := by simp [hdx]
      simp only [hbx, Bool.false_eq_true, if_false, if_neg hdx] at hq ⊢
      omega
  have hgd1a : alGetD (alInsert s.kittiesOwned b (alGetD s.kittiesOwned b [] ++ [kid]))
      a [] = alGetD s.kittiesOwned a [] :=
    alGetD_alInsert_ne _ _ _ _ _ hab
  have hS2 : ∀ x,
      sumCounts (alInsert
          (alInsert s.kittiesOwned b (alGetD s.kittiesOwned b [] ++ [kid])) a
          (swapRemove (alGetD s.kittiesOwned a []) ind)) x
        = sumCounts s.kittiesOwned x := by
    intro x
    have hq := sumCounts_alInsert
      (alInsert s.kittiesOwned b (alGetD s.kittiesOwned b [] ++ [kid])) a
      (swapRemove (alGetD s.kittiesOwned a []) ind) x
    rw [hgd1a] at hq
    have hcnt := count_swapRemove (alGetD s.kittiesOwned a []) ind hlt x
    rw [hget] at hcnt
    have h1 := hS1 x
    omega
  have hgd2_b : alGetD (alInsert
      (alInsert s.kittiesOwned b (alGetD s.kittiesOwned b [] ++ [kid])) a
      (swapRemove (alGetD s.kittiesOwned a []) ind)) b []
      = alGetD s.kittiesOwned b [] ++ [kid] := by
    rw [alGetD_alInsert_ne _ _ _ _ _ (Ne.symm hab), alGetD_alInsert_self]
  have hgd2_a : alGetD (alInsert
      (alInsert s.kittiesOwned b (alGetD s.kittiesOwned b [] ++ [kid])) a
      (swapRemove (alGetD s.kittiesOwned a []) ind)) a []
      = swapRemove (alGetD s.kittiesOwned a []) ind :=
    alGetD_alInsert_self _ _ _ _
  refine ⟨nodup_keys_alInsert _ _ _ hg.kkeys,
    nodup_keys_alInsert _ _ _ (nodup_keys_alInsert _ _ _ hg.okeys), ?_, ?_⟩
  · intro x hx
    rw [hS2 x] at hx
    by_cases hdx : x = kid
    · subst hdx
      rw [alGet_alInsert_self]
      rfl
    · rw [alGet_alInsert_ne _ _ _ _ hdx]
      exact hg.owned_reg x hx
  · intro x k hk'
    by_cases hdx : x = kid
    · subst hdx
      rw [alGet_alInsert_self] at hk'
      have hkk : k = { kitty with owner := b, price := none } := (Option.some.inj hk').symm
      subst hkk
      constructor
      · rw [hS2 x]
        exact (hg.reg_owned x kitty hk).1
      · rw [hgd2_b]
        exact List.mem_append.mpr (Or.inr (by simp))
    · rw [alGet_alInsert_ne _ _ _ _ hdx] at hk'
      obtain ⟨hs1, hm1⟩ := hg.reg_owned x k hk'
      constructor
      · rw [hS2 x]
        exact hs1
      · by_cases hob : k.owner = b
        · rw [hob, hgd2_b]
          rw [hob] at hm1
          exact List.mem_append.mpr (Or.inl hm1)
        · by_cases hoa : k.owner = a
          · rw [hoa, hgd2_a]
            rw [hoa] at hm1
            refine mem_swapRemove_of_ne _ ind hlt x hm1 ?_
            rw [hget]
            exact fun hh => hdx hh.symm
          · rw [alGetD_alInsert_ne _ _ _ _ _ hoa, alGetD_alInsert_ne _ _ _ _ _ hob]
            exact hm1

theorem goodState_do_set_price (c : AccountId) (kid : Dna) (p : Option Balance)
    (s s' : State) (ev : List Event) (hg : GoodState s)
    (h : do_set_price c kid p s = .inr (s', ev)) : GoodState s' := by
  obtain ⟨kitty, hk, how, hs', hev⟩ := do_set_price_inr c kid p s s' ev h
  subst hs'
  refine ⟨nodup_keys_alInsert _ _ _ hg.kkeys, hg.okeys, ?_, ?_⟩
  · intro x hx
    by_cases hdx : x = kid
    · subst hdx
      rw [alGet_alInsert_self]
      rfl
    · rw [alGet_alInsert_ne _ _ _ _ hdx]
      exact hg.owned_reg x hx
  · intro x k hk'
    by_cases hdx : x = kid
    · subst hdx
      rw [alGet_alInsert_self] at hk'
      have hkk : k = { kitty with price := p } := (Option.some.inj hk').symm
      subst hkk
      exact hg.reg_owned x kitty hk
    · rw [alGet_alInsert_ne _ _ _ _ hdx] at hk'
      exact hg.reg_owned x k hk'

theorem goodState_do_buy (mk : Nat) (buyer : AccountId) (kid : Dna) (mp : Balance)
    (s s' : State) (ev : List Event) (hg : GoodState s)
    (h : do_buy_kitty mk buyer kid mp s = .inr (s', ev)) : GoodState s' := by
  obtain ⟨kitty, rp, s1, ev2, hk, hp, hmp, hf, ht, hev⟩ :=
    do_buy_kitty_inr mk buyer kid mp s s' ev h
  have hg1 : GoodState s1 := by
    obtain ⟨-, hs1⟩ := transferFunds_inr mk buyer kitty.owner rp s s1 hf
    subst hs1
    exact ⟨hg.kkeys, hg.okeys, hg.owned_reg, hg.reg_owned⟩
  exact goodState_do_transfer kitty.owner buyer kid s1 s' ev2 hg1 ht

theorem goodState_step (mk : Nat) (op : Op) (s s' : State) (ev : List Event)
    (hg : GoodState s) (h : step mk op s = .inr (s', ev)) : GoodState s' := by
  rw [step_inr] at h
  cases op with
  | create who dna => exact goodState_mint who dna s s' ev hg h
  | transfer who dst kid => exact goodState_do_transfer who dst kid s s' ev hg h
  | setPrice who kid p => exact goodState_do_set_price who kid p s s' ev hg h
  | buy who kid mp => exact goodState_do_buy mk who kid mp s s' ev hg h

theorem reachable_goodState (s : State) (h : Reachable s) : GoodState s := by
  induction h with
  | init bal =>
    refine ⟨by simp, by simp, ?_, ?_⟩
    · intro d hd
      simp [sumCounts] at hd
    · intro d k hk
      simp [alGet] at hk
  | next s s' mk op ev hr hstep ih => exact goodState_step mk op s s' ev ih hstep

/-! ### Preservation of count = registry size, and the mint-sequence lemma -/

theorem countInv_step (mk : Nat) (op : Op) (s s' : State) (ev : List Event)
    (hc : s.countForKitties = s.kitties.length) (h : step mk op s = .inr (s', ev)) :
    s'.countForKitties = s'.kitties.length := by
  rw [step_inr] at h
  cases op with
  | create o d =>
    obtain ⟨hnone, -, -, hs', -⟩ := mint_inr o d s s' ev h
    subst hs'
    simp [length_alInsert_none _ _ _ hnone, hc]
  | transfer a b kid =>
    obtain ⟨kitty, ind, -, hk, -, -, -, hs', -⟩ := do_transfer_inr a b kid s s' ev h
    subst hs'
    simp [length_alInsert_isSome s.kitties kid _ (by simp [hk]), hc]
  | setPrice c kid p =>
    obtain ⟨kitty, hk, -, hs', -⟩ := do_set_price_inr c kid p s s' ev h
    subst hs'
    simp [length_alInsert_isSome s.kitties kid _ (by simp [hk]), hc]
  | buy buyer kid mp =>
    obtain ⟨kitty, rp, s1, ev2, hk, -, -, hf, ht, -⟩ :=
      do_buy_kitty_inr mk buyer kid mp s s' ev h
    obtain ⟨kitty2, ind, -, hk2, -, -, -, hs', -⟩ :=
      do_transfer_inr kitty.owner buyer kid s1 s' ev2 ht
    obtain ⟨-, hs1⟩ := transferFunds_inr mk buyer kitty.owner rp s s1 hf
    subst hs'
    subst hs1
    have hk2' : alGet s.kitties kid = some kitty2 := hk2
    simp [length_alInsert_isSome s.kitties kid _ (by simp [hk2']), hc]

theorem mintSeq_props : ∀ (ps : List (AccountId × Dna)) (s s' : State),
    mintSeq ps s = some s' →
    s'.countForKitties = s.countForKitties + ps.length ∧
    (ps.map Prod.snd).Nodup ∧
    (∀ d ∈ ps.map Prod.snd, alGet s.kitties d = none) ∧
    (∀ x, (alGet s.kitties x).isSome = true → (alGet s'.kitties x).isSome = true) ∧
    (∀ d ∈ ps.map Prod.snd, (alGet s'.kitties d).isSome = true) := by
  intro ps
  induction ps with
  | nil =>
    intro s s' h
    simp only [mintSeq, Option.some.injEq] at h
    subst h
    simp
  | cons od rest ih =>
    intro s s' h
    obtain ⟨o, d⟩ := od
    cases hm : mint o d s with
    | inl e =>
      simp only [mintSeq, hm] at h
      exact Option.noConfusion h
    | inr r =>
      obtain ⟨s1, ev⟩ := r
      replace h : mintSeq rest s1 = some s' := by
        simp only [mintSeq, hm] at h
        exact h
      obtain ⟨hnone, -, -, hs1, -⟩ := mint_inr o d s s1 ev hm
      obtain ⟨hcnt, hnd, hfresh, hmono, hpres⟩ := ih s1 s' h
      have hs1get : ∀ y, alGet s1.kitties y =
          if y = d then some { dna := d, owner := o, price := none }
          else alGet s.kitties y := by
        intro y
        subst hs1
        by_cases hyd : y = d
        · subst hyd
          simp [alGet_alInsert_self]
        · simp only [if_neg hyd]
          exact alGet_alInsert_ne _ _ _ _ hyd
      have hcnt1 : s1.countForKitties = s.countForKitties + 1 := by
        subst hs1
        rfl
      refine ⟨by rw [hcnt, hcnt1]; simp only [List.length_cons]; omega, ?_, ?_, ?_, ?_⟩
      · simp only [List.map_cons]
        refine List.Nodup.cons (fun hdm => ?_) hnd
        have := hfresh d hdm
        rw [hs1get d, if_pos rfl] at this
        exact Option.noConfusion this
      · intro d' hd'
        simp only [List.map_cons, List.mem_cons] at hd'
        rcases hd' with rfl | hd'
        · exact hnone
        · have hn1 := hfresh d' hd'
          rw [hs1get d'] at hn1
          by_cases hyd : d' = d
          · subst hyd
            exact hnone
          · rw [if_neg hyd] at hn1
            exact hn1
      · intro x hx
        refine hmono x ?_
        rw [hs1get x]
        by_cases hyd : x = d
        · simp [hyd]
        · rw [if_neg hyd]
          exact hx
      · intro d' hd'
        simp only [List.map_cons, List.mem_cons] at hd'
        rcases hd' with rfl | hd'
        · refine hmono d' ?_
          rw [hs1get d', if_pos rfl]
          rfl
        · exact hpres d' hd'

/-! ### Preservation of the per-owner capacity bound -/

theorem alGetD_length_le (s : State) (a : AccountId)
    (hb : ∀ c l, (c, l) ∈ s.kittiesOwned → l.length ≤ 100) :
    (alGetD s.kittiesOwned a []).length ≤ 100 := by
  cases hga : alGet s.kittiesOwned a with
  | none => simp [alGetD, hga]
  | some l0 =>
    have := hb a l0 (alGet_mem _ _ _ hga)
    simpa [alGetD, hga] using this

theorem ownedBound_do_transfer (a b : AccountId) (kid : Dna) (s s' : State)
    (ev : List Event) (hb : ∀ c l, (c, l) ∈ s.kittiesOwned → l.length ≤ 100)
    (h : do_transfer a b kid s = .inr (s', ev)) :
    ∀ c l, (c, l) ∈ s'.kittiesOwned → l.length ≤ 100 := by
  obtain ⟨kitty, ind, hab, hk, how, hcap, hidx, hs', -⟩ :=
    do_transfer_inr a b kid s s' ev h
  subst hs'
  intro c l hl
  rcases mem_alInsert _ _ _ _ hl with he | he
  · have hle : l = swapRemove (alGetD s.kittiesOwned a []) ind := congrArg Prod.snd he
    rw [hle]
    have h1 := length_swapRemove_le (alGetD s.kittiesOwned a []) ind
    have h2 := alGetD_length_le s a hb
    omega
  · rcases mem_alInsert _ _ _ _ he with he2 | he2
    · have hle : l = alGetD s.kittiesOwned b [] ++ [kid] := congrArg Prod.snd he2
      rw [hle]
      simp only [List.length_append, List.length_singleton]
      omega
    · exact hb c l he2

theorem ownedBound_step (mk : Nat) (op : Op) (s s' : State) (ev : List Event)
    (hb : ∀ c l, (c, l) ∈ s.kittiesOwned → l.length ≤ 100)
    (h : step mk op s = .inr (s', ev)) :
    ∀ c l, (c, l) ∈ s'.kittiesOwned → l.length ≤ 100 := by
  rw [step_inr] at h
  cases op with
  | create o d =>
    obtain ⟨-, -, hcap, hs', -⟩ := mint_inr o d s s' ev h
    subst hs'
    intro c l hl
    rcases mem_alInsert _ _ _ _ hl with he | he
    · have hle : l = alGetD s.kittiesOwned o [] ++ [d] := congrArg Prod.snd he
      rw [hle]
      simp only [List.length_append, List.length_singleton]
      omega
    · exact hb c l he
  | transfer a b kid => exact ownedBound_do_transfer a b kid s s' ev hb h
  | setPrice c kid p =>
    obtain ⟨kitty, hk, -, hs', -⟩ := do_set_price_inr c kid p s s' ev h
    subst hs'
    exact hb
  | buy buyer kid mp =>
    obtain ⟨kitty, rp, s1, ev2, hk, -, -, hf, ht, -⟩ :=
      do_buy_kitty_inr mk buyer kid mp s s' ev h
    obtain ⟨-, hs1⟩ := transferFunds_inr mk buyer kitty.owner rp s s1 hf
    have hb1 : ∀ c l, (c, l) ∈ s1.kittiesOwned → l.length ≤ 100 := by
      subst hs1
      exact hb
    exact ownedBound_do_transfer kitty.owner buyer kid s1 s' ev2 hb1 ht

theorem reachable_ownedBound (s : State) (h : Reachable s) :
    ∀ c l, (c, l) ∈ s.kittiesOwned → l.length ≤ 100 := by
  induction h with
  | init bal =>
    intro c l hl
    simp at hl
  | next s s' mk op ev hr hstep ih => exact ownedBound_step mk op s s' ev ih hstep

/-! ### Aborting states: every error of the three single-store operations
leaves the raw storage untouched -/

theorem mint_inl (o : AccountId) (d : Dna) (s : State) (e : KittyError) (s' : State)
    (h : mint o d s = .inl (e, s')) : s' = s := by
  cases hd : alGet s.kitties d with
  | some k =>
    have hval : mint o d s = .inl (.DuplicateKitty, s) := by simp [mint, hd]
    rw [hval] at h
    exact (congrArg Prod.snd (Sum.inl.inj h)).symm
  | none =>
    by_cases h2 : s.countForKitties + 1 ≤ u32Max
    · by_cases h3 : 100 ≤ (alGetD s.kittiesOwned o []).length
      · have hval : mint o d s = .inl (.TooManyOwned, s) := by
          simp [mint, checkedAdd, hd, h2, h3]
        rw [hval] at h
        exact (congrArg Prod.snd (Sum.inl.inj h)).symm
      · simp [mint, checkedAdd, hd, h2, h3] at h
    · have hval : mint o d s = .inl (.TooManyKitties, s) := by
        simp [mint, checkedAdd, hd, h2]
      rw [hval] at h
      exact (congrArg Prod.snd (Sum.inl.inj h)).symm

theorem do_transfer_inl (a b : AccountId) (kid : Dna) (s : State) (e : KittyError)
    (s' : State) (h : do_transfer a b kid s = .inl (e, s')) : s' = s := by
  by_cases hab : a = b
  · have hval : do_transfer a b kid s = .inl (.TransferToSelf, s) := by
      simp [do_transfer, hab]
    rw [hval] at h
    exact (congrArg Prod.snd (Sum.inl.inj h)).symm
  · cases hd : alGet s.kitties kid with
    | none =>
      have hval : do_transfer a b kid s = .inl (.NoKitty, s) := by
        simp [do_transfer, hab, hd]
      rw [hval] at h
      exact (congrArg Prod.snd (Sum.inl.inj h)).symm
    | some kitty =>
      by_cases how : kitty.owner = a
      · by_cases hcap : 100 ≤ (alGetD s.kittiesOwned b []).length
        · have hval : do_transfer a b kid s = .inl (.TooManyOwned, s) := by
            simp [do_transfer, hab, hd, how, hcap]
          rw [hval] at h
          exact (congrArg Prod.snd (Sum.inl.inj h)).symm
        · cases hidx : (alGetD s.kittiesOwned a []).findIdx? (fun id => id == kid) with
          | none =>
            have hval : do_transfer a b kid s = .inl (.NoKitty, s) := by
              simp [do_transfer, hab, hd, how, hcap, hidx]
            rw [hval] at h
            exact (congrArg Prod.snd (Sum.inl.inj h)).symm
          | some ind => simp [do_transfer, hab, hd, how, hcap, hidx] at h
      · have hval : do_transfer a b kid s = .inl (.NotOwner, s) := by
          simp [do_transfer, hab, hd, how]
        rw [hval] at h
        exact (congrArg Prod.snd (Sum.inl.inj h)).symm

theorem do_set_price_inl (c : AccountId) (kid : Dna) (p : Option Balance) (s : State)
    (e : KittyError) (s' : State) (h : do_set_price c kid p s = .inl (e, s')) :
    s' = s := by
  cases hd : alGet s.kitties kid with
  | none =>
    have hval : do_set_price c kid p s = .inl (.NoKitty, s) := by
      simp [do_set_price, hd]
    rw [hval] at h
    exact (congrArg Prod.snd (Sum.inl.inj h)).symm
  | some kitty =>
    by_cases how : kitty.owner = c
    · simp [do_set_price, hd, how] at h
    · have hval : do_set_price c kid p s = .inl (.NotOwner, s) := by
        simp [do_set_price, hd, how]
      rw [hval] at h
      exact (congrArg Prod.snd (Sum.inl.inj h)).symm

theorem step_inl (mk : Nat) (op : Op) (s : State) (e : KittyError) (s' : State)
    (h : step mk op s = .inl (e, s')) : s' = s := by
  unfold step dispatch at h
  cases hr : rawStep mk op s with
  | inl p =>
    obtain ⟨e1, s1⟩ := p
    rw [hr] at h
    exact (congrArg Prod.snd (Sum.inl.inj h)).symm
  | inr r =>
    rw [hr] at h
    exact absurd h (by simp)

theorem dispatch_eq_inl (f : State → OpResult) (s : State) (e : KittyError)
    (s₀ : State) (h : f s = .inl (e, s₀)) : dispatch f s = .inl (e, s) := by
  unfold dispatch
  rw [h]

theorem dispatch_eq_inr (f : State → OpResult) (s : State) (r : State × List Event)
    (h : f s = .inr r) : dispatch f s = .inr r := by
  unfold dispatch
  rw [h]

theorem countP_mem_le_sumCounts (m : List (AccountId × List Dna)) (d : Dna) :
    m.countP (fun p => decide (d ∈ p.2)) ≤ sumCounts m d := by
  induction m with
  | nil => simp [sumCounts]
  | cons p rest ih =>
    obtain ⟨k, w⟩ := p
    rw [List.countP_cons, sumCounts_cons]
    by_cases hw : d ∈ w
    · have h1 : 0 < w.count d := List.count_pos_iff.mpr hw
      simp only [decide_eq_true hw, if_true]
      omega
    · simp only [decide_eq_false hw, Bool.false_eq_true, if_false]
      omega

theorem findIdx?_isSome_of_mem (l : List Dna) (d : Dna) (h : d ∈ l) :
    ∃ i, l.findIdx? (fun id => id == d) = some i := by
  cases hf : l.findIdx? (fun id => id == d) with
  | some i => exact ⟨i, rfl⟩
  | none =>
    rw [List.findIdx?_eq_none_iff] at hf
    have := hf d h
    simp at this

/-! ## Claim theorems -/

/-- C1: for every state and buy invocation, if the external fund-transfer step
succeeds but the subsequent ownership-transfer step fails, the observable
outcome of `buy_kitty` is that error with the state exactly as before the
call: neither the balance movement nor the ownership change takes effect. -/
theorem C1_buy_atomic (mk : Nat) (buyer : AccountId) (kid : Dna) (mp : Balance)
    (s s1 sAbort : State) (k : Kitty) (rp : Balance) (e : KittyError)
    (hk : alGet s.kitties kid = some k) (hp : k.price = some rp) (hmp : rp ≤ mp)
    (hfund : transferFunds mk buyer k.owner rp s = .inr s1)
    (hfail : do_transfer k.owner buyer kid s1 = .inl (e, sAbort)) :
    step mk (.buy buyer kid mp) s = .inl (e, s) := by
  have hraw : do_buy_kitty mk buyer kid mp s = .inl (e, sAbort) := by
    simp [do_buy_kitty, hk, hp, Nat.not_lt.mpr hmp, hfund, hfail]
  exact dispatch_eq_inl _ _ _ _ hraw

/-- Witness for C1: buyer 1 buys their own listed kitty 7; the fund
self-transfer succeeds, the inner ownership transfer fails with
TransferToSelf, and the dispatched buy leaves the state untouched. -/
theorem C1_buy_atomic_witness :
    step 0 (.buy 1 7 50) sListed = .inl (.TransferToSelf, sListed) :=
  C1_buy_atomic 0 1 7 50 sListed sListed sListed kListed 50 .TransferToSelf
    (by decide) (by decide) (by decide) (by decide) (by decide)

/-- C2: in every reachable state, every fingerprint present in the Asset
Registry is contained in exactly one Ownership Index entry (indeed occurs
exactly once across the whole index), and that entry is the one of the
asset's `owner`. -/
theorem C2_ownership_consistent (s : State) (hs : Reachable s) (d : Dna) (k : Kitty)
    (hk : alGet s.kitties d = some k) :
    s.kittiesOwned.countP (fun p => decide (d ∈ p.2)) = 1 ∧
    d ∈ alGetD s.kittiesOwned k.owner [] ∧
    sumCounts s.kittiesOwned d = 1 := by
  obtain ⟨hsum, hmem⟩ := (reachable_goodState s hs).reg_owned d k hk
  refine ⟨?_, hmem, hsum⟩
  have hle : s.kittiesOwned.countP (fun p => decide (d ∈ p.2))
      ≤ sumCounts s.kittiesOwned d := countP_mem_le_sumCounts _ _
  have hpos : 0 < s.kittiesOwned.countP (fun p => decide (d ∈ p.2)) := by
    cases hga : alGet s.kittiesOwned k.owner with
    | none => simp [alGetD, hga] at hmem
    | some l0 =>
      refine List.countP_pos.mpr ⟨(k.owner, l0), alGet_mem _ _ _ hga, ?_⟩
      simp only [decide_eq_true_eq]
      simpa [alGetD, hga] using hmem
  omega

/-- Witness for C2 at the state reached by one mint from genesis. -/
theorem C2_ownership_consistent_witness :
    sEx.kittiesOwned.countP (fun p => decide ((7 : Dna) ∈ p.2)) = 1 ∧
    (7 : Dna) ∈ alGetD sEx.kittiesOwned kEx.owner [] ∧
    sumCounts sEx.kittiesOwned 7 = 1 :=
  C2_ownership_consistent sEx
    (Reachable.next genesis0 sEx 0 (.create 1 7) [Event.Created 1]
      (Reachable.init []) (by decide))
    7 kEx (by decide)

/-- C3: every operation is all-or-nothing.  At the dispatch boundary any
error returns the pre-call state unchanged; moreover for mint, transfer and
set-price even the raw storage-level semantics never writes before an error
(all validation precedes every write). -/
theorem C3_all_or_nothing :
    (∀ mk op s e s', step mk op s = .inl (e, s') → s' = s) ∧
    (∀ o d s e s', mint o d s = .inl (e, s') → s' = s) ∧
    (∀ a b kid s e s', do_transfer a b kid s = .inl (e, s') → s' = s) ∧
    (∀ c kid p s e s', do_set_price c kid p s = .inl (e, s') → s' = s) :=
  ⟨fun mk op s e s' h => step_inl mk op s e s' h,
   fun o d s e s' h => mint_inl o d s e s' h,
   fun a b kid s e s' h => do_transfer_inl a b kid s e s' h,
   fun c kid p s e s' h => do_set_price_inl c kid p s e s' h⟩

/-- Witness for C3: four concrete failing calls, each leaving the state as it
was. -/
theorem C3_all_or_nothing_witness : sEx = sEx ∧ sEx = sEx ∧ sEx = sEx ∧ sEx = sEx :=
  ⟨C3_all_or_nothing.1 0 (.transfer 1 1 7) sEx .TransferToSelf sEx (by decide),
   C3_all_or_nothing.2.1 1 7 sEx .DuplicateKitty sEx (by decide),
   C3_all_or_nothing.2.2.1 1 1 7 sEx .TransferToSelf sEx (by decide),
   C3_all_or_nothing.2.2.2 2 9 none sEx .NoKitty sEx (by decide)⟩

/-- C4: in every reachable state the asset count equals the number of
registry entries, and any successful sequence of N mints from genesis yields
count N with pairwise-distinct fingerprints. -/
theorem C4_count_matches_registry :
    (∀ s, Reachable s → s.countForKitties = s.kitties.length) ∧
    (∀ ps s', mintSeq ps genesis0 = some s' →
       s'.countForKitties = ps.length ∧ (ps.map Prod.snd).Nodup) := by
  constructor
  · intro s hs
    induction hs with
    | init bal => rfl
    | next s s' mk op ev hr hstep ih => exact countInv_step mk op s s' ev ih hstep
  · intro ps s' h
    obtain ⟨hcnt, hnd, -, -, -⟩ := mintSeq_props ps genesis0 s' h
    refine ⟨?_, hnd⟩
    rw [hcnt]
    simp [genesis0]

/-- Witness for C4: the one-mint state, and a concrete two-mint run. -/
theorem C4_count_matches_registry_witness :
    sEx.countForKitties = sEx.kitties.length ∧
    sTwo.countForKitties = 2 ∧
    ([((1 : AccountId), (5 : Dna)), (2, 9)].map Prod.snd).Nodup := by
  refine ⟨?_, ?_, ?_⟩
  · exact C4_count_matches_registry.1 sEx
      (Reachable.next genesis0 sEx 0 (.create 1 7) [Event.Created 1]
        (Reachable.init []) (by decide))
  · exact (C4_count_matches_registry.2 [((1 : AccountId), (5 : Dna)), (2, 9)] sTwo
      (by decide)).1
  · exact (C4_count_matches_registry.2 [((1 : AccountId), (5 : Dna)), (2, 9)] sTwo
      (by decide)).2

/-- C7: a self-transfer always fails with TransferToSelf, both in the raw
semantics (which returns the untouched state) and at the dispatch boundary,
regardless of whether the asset exists or who owns it. -/
theorem C7_self_transfer (mk : Nat) (a : AccountId) (kid : Dna) (s : State) :
    do_transfer a a kid s = .inl (.TransferToSelf, s) ∧
    step mk (.transfer a a kid) s = .inl (.TransferToSelf, s) := by
  have hraw : do_transfer a a kid s = .inl (.TransferToSelf, s) := by
    simp [do_transfer]
  exact ⟨hraw, dispatch_eq_inl _ _ _ _ hraw⟩

/-- C5 counterexample: in `sListed`, kitty 7 exists with listed price 50,
the buyer's max price equals the listed price and the fund transfer succeeds
(buyer 1 is the owner, so the funds move from 1 to 1), yet buy does not
succeed: it fails with TransferToSelf. -/
theorem C5_counterexample :
    alGet sListed.kitties 7 = some kListed ∧
    kListed.price = some 50 ∧
    transferFunds 0 1 kListed.owner 50 sListed = .inr sListed ∧
    (step 0 (.buy 1 7 50) sListed).isLeft = true ∧
    step 0 (.buy 1 7 50) sListed = .inl (.TransferToSelf, sListed) := by decide

/-- C5 (amended): for a state where the asset exists, (a) buy fails with
NotForSale when the price is absent, (b) buy fails with MaxPriceTooLow when
max_price is strictly below the listed price, and (c) when max_price equals
the listed price, the fund transfer succeeds, the buyer is not the current
owner, the buyer's index entry has room and the fingerprint is found in the
owner's index entry, buy succeeds and moves exactly the listed price — not
the buyer's maximum — from buyer to seller, with the sold notification
carrying the listed price and the asset's record showing the buyer as owner
with the price cleared. -/
theorem C5_amended (mk : Nat) (buyer : AccountId) (kid : Dna) (s : State)
    (k : Kitty) (hk : alGet s.kitties kid = some k) :
    (k.price = none → ∀ mp, step mk (.buy buyer kid mp) s = .inl (.NotForSale, s)) ∧
    (∀ rp mp, k.price = some rp → mp < rp →
       step mk (.buy buyer kid mp) s = .inl (.MaxPriceTooLow, s)) ∧
    (∀ rp ind, k.price = some rp → rp + mk ≤ alGetD s.balances buyer 0 →
       buyer ≠ k.owner → (alGetD s.kittiesOwned buyer []).length < 100 →
       (alGetD s.kittiesOwned k.owner []).findIdx? (fun id => id == kid) = some ind →
       step mk (.buy buyer kid rp) s = .inr
         ({ s with
            kitties := alInsert s.kitties kid { dna := k.dna, owner := buyer, price := none },
            kittiesOwned := alInsert (alInsert s.kittiesOwned buyer
                (alGetD s.kittiesOwned buyer [] ++ [kid])) k.owner
                (swapRemove (alGetD s.kittiesOwned k.owner []) ind),
            balances := alInsert
                (alInsert s.balances buyer (alGetD s.balances buyer 0 - rp)) k.owner
                (alGetD (alInsert s.balances buyer (alGetD s.balances buyer 0 - rp))
                  k.owner 0 + rp) },
          [Event.Transferred k.owner buyer kid, Event.Sold buyer kid rp]) ∧
       (∀ s' ev', step mk (.buy buyer kid rp) s = .inr (s', ev') →
          alGetD s'.balances buyer 0 + rp = alGetD s.balances buyer 0 ∧
          alGetD s'.balances k.owner 0 = alGetD s.balances k.owner 0 + rp ∧
          alGet s'.kitties kid = some { dna := k.dna, owner := buyer, price := none } ∧
          ev'.getLast? = some (Event.Sold buyer kid rp))) := by
  refine ⟨?_, ?_, ?_⟩
  · intro hpnone mp
    have hraw : do_buy_kitty mk buyer kid mp s = .inl (.NotForSale, s) := by
      simp [do_buy_kitty, hk, hpnone]
    exact dispatch_eq_inl _ _ _ _ hraw
  · intro rp mp hp hmp
    have hraw : do_buy_kitty mk buyer kid mp s = .inl (.MaxPriceTooLow, s) := by
      simp [do_buy_kitty, hk, hp, hmp]
    exact dispatch_eq_inl _ _ _ _ hraw
  · intro rp ind hp hbal hne hcap hidx
    have hnotlt : ¬ (alGetD s.balances buyer 0 < rp + mk) := Nat.not_lt.mpr hbal
    have hfund : transferFunds mk buyer k.owner rp s = .inr
        { s with
          balances :=
            alInsert (alInsert s.balances buyer (alGetD s.balances buyer 0 - rp)) k.owner
              (alGetD (alInsert s.balances buyer (alGetD s.balances buyer 0 - rp))
                k.owner 0 + rp) } := by
      simp [transferFunds, hnotlt]
    have hbuy : do_buy_kitty mk buyer kid rp s = .inr
        ({ s with
           kitties := alInsert s.kitties kid { dna := k.dna, owner := buyer, price := none },
           kittiesOwned := alInsert (alInsert s.kittiesOwned buyer
               (alGetD s.kittiesOwned buyer [] ++ [kid])) k.owner
               (swapRemove (alGetD s.kittiesOwned k.owner []) ind),
           balances := alInsert
               (alInsert s.balances buyer (alGetD s.balances buyer 0 - rp)) k.owner
               (alGetD (alInsert s.balances buyer (alGetD s.balances buyer 0 - rp))
                 k.owner 0 + rp) },
         [Event.Transferred k.owner buyer kid, Event.Sold buyer kid rp]) := by
      simp [do_buy_kitty, hk, hp, hfund, do_transfer, Ne.symm hne, Nat.not_le.mpr hcap,
        hidx]
    have hstep := dispatch_eq_inr _ _ _ hbuy
    refine ⟨hstep, ?_⟩
    intro s' ev' h'
    replace h' : dispatch (do_buy_kitty mk buyer kid rp) s = .inr (s', ev') := h'
    rw [hstep] at h'
    obtain ⟨hs', hev'⟩ := Prod.mk.injEq _ _ _ _ ▸ Sum.inr.inj h'
    refine ⟨?_, ?_, ?_, ?_⟩
    · rw [← hs']
      have e2 : alGetD
          (alInsert (alInsert s.balances buyer (alGetD s.balances buyer 0 - rp)) k.owner
            (alGetD (alInsert s.balances buyer (alGetD s.balances buyer 0 - rp))
              k.owner 0 + rp)) buyer 0 = alGetD s.balances buyer 0 - rp := by
        rw [alGetD_alInsert_ne _ _ _ _ _ hne, alGetD_alInsert_self]
      have hle : rp ≤ alGetD s.balances buyer 0 :=
        le_trans (Nat.le_add_right rp mk) hbal
      calc alGetD
            ({ s with
               kitties := alInsert s.kitties kid { dna := k.dna, owner := buyer, price := none },
               kittiesOwned := alInsert (alInsert s.kittiesOwned buyer
                   (alGetD s.kittiesOwned buyer [] ++ [kid])) k.owner
                   (swapRemove (alGetD s.kittiesOwned k.owner []) ind),
               balances := alInsert
                   (alInsert s.balances buyer (alGetD s.balances buyer 0 - rp)) k.owner
                   (alGetD (alInsert s.balances buyer (alGetD s.balances buyer 0 - rp))
                     k.owner 0 + rp) } : State).balances buyer 0 + rp
          = (alGetD s.balances buyer 0 - rp) + rp := by rw [e2]
        _ = alGetD s.balances buyer 0 := Nat.sub_add_cancel hle
    · rw [← hs']
      show alGetD
          (alInsert (alInsert s.balances buyer (alGetD s.balances buyer 0 - rp)) k.owner
            (alGetD (alInsert s.balances buyer (alGetD s.balances buyer 0 - rp))
              k.owner 0 + rp)) k.owner 0 = alGetD s.balances k.owner 0 + rp
      rw [alGetD_alInsert_self, alGetD_alInsert_ne _ _ _ _ _ (Ne.symm hne)]
    · rw [← hs']
      exact alGet_alInsert_self _ _ _
    · rw [← hev']
      rfl

/-- Witness for C5 (amended): buy of kitty 7 in `sEx` (unlisted) fails
NotForSale, a low offer in `sListed` fails MaxPriceTooLow, and account 2
buying at exactly the listed price succeeds, paying exactly 50. -/
theorem C5_amended_witness :
    step 0 (.buy 2 7 10) sEx = .inl (.NotForSale, sEx) ∧
    step 0 (.buy 2 7 30) sListed = .inl (.MaxPriceTooLow, sListed) ∧
    step 0 (.buy 2 7 50) sListed =
      .inr (sSold, [Event.Transferred 1 2 7, Event.Sold 2 7 50]) ∧
    alGetD sSold.balances 2 0 + 50 = alGetD sListed.balances 2 0 ∧
    alGetD sSold.balances 1 0 = alGetD sListed.balances 1 0 + 50 ∧
    alGet sSold.kitties 7 = some { dna := 7, owner := 2, price := none } := by
  have h1 := (C5_amended 0 2 7 sEx kEx (by decide)).1 (by decide) 10
  have h2 := (C5_amended 0 2 7 sListed kListed (by decide)).2.1 50 30 (by decide)
    (by decide)
  have h3 := (C5_amended 0 2 7 sListed kListed (by decide)).2.2 50 0 (by decide)
    (by decide) (by decide) (by decide) (by decide)
  have hsold : step 0 (.buy 2 7 50) sListed =
      .inr (sSold, [Event.Transferred 1 2 7, Event.Sold 2 7 50]) :=
    h3.1.trans (by decide)
  have h4 := h3.2 sSold [Event.Transferred 1 2 7, Event.Sold 2 7 50] hsold
  exact ⟨h1, h2, hsold, h4.1, h4.2.1, h4.2.2.1⟩

/-- C6: transferring an asset from A to B and then back from B to A leaves
its record with owner A and no price, whatever the initial price was: the
price is cleared on every transfer, including the return trip. -/
theorem C6_round_trip (a b : AccountId) (kid : Dna) (s s1 s2 : State)
    (ev1 ev2 : List Event) (k : Kitty)
    (hk : alGet s.kitties kid = some k) (_hka : k.owner = a)
    (h1 : do_transfer a b kid s = .inr (s1, ev1))
    (h2 : do_transfer b a kid s1 = .inr (s2, ev2)) :
    alGet s2.kitties kid = some { dna := k.dna, owner := a, price := none } := by
  obtain ⟨k1, i1, -, hk1, -, -, -, hs1, -⟩ := do_transfer_inr a b kid s s1 ev1 h1
  obtain ⟨k2, i2, -, hk2, -, -, -, hs2, -⟩ := do_transfer_inr b a kid s1 s2 ev2 h2
  have hk1k : k1 = k := by
    rw [hk] at hk1
    exact (Option.some.inj hk1).symm
  have hs1k : alGet s1.kitties kid = some { dna := k.dna, owner := b, price := none } := by
    rw [hs1, hk1k]
    exact alGet_alInsert_self _ _ _
  rw [hs1k] at hk2
  have hk2v : k2 = { dna := k.dna, owner := b, price := none } :=
    (Option.some.inj hk2).symm
  rw [hs2, hk2v]
  exact alGet_alInsert_self _ _ _

/-- Witness for C6: round trip of kitty 7 between accounts 1 and 2. -/
theorem C6_round_trip_witness :
    alGet sRound2.kitties 7 = some { dna := 7, owner := 1, price := none } :=
  C6_round_trip 1 2 7 sEx sRound1 sRound2 [Event.Transferred 1 2 7]
    [Event.Transferred 2 1 7] kEx (by decide) (by decide) (by decide) (by decide)

/-- C8 counterexample: account 1's index entry holds exactly 100
fingerprints, yet a mint for account 1 of an already-existing dna fails with
DuplicateKitty, not TooManyOwned. -/
theorem C8_counterexample :
    (alGetD sFull.kittiesOwned 1 []).length = 100 ∧
    mint 1 5 sFull = .inl (.DuplicateKitty, sFull) ∧
    KittyError.DuplicateKitty ≠ KittyError.TooManyOwned := by decide

/-- C8 (amended): with the earlier checks passing (fresh dna and no counter
overflow for mint; distinct accounts, existing asset and correct source for
transfer), a mint for an owner whose index entry holds 100 fingerprints, or
a transfer with that owner as destination, fails with TooManyOwned and
leaves the state (hence that entry, at exactly 100) unchanged; and in every
reachable state no index entry exceeds 100 fingerprints. -/
theorem C8_amended :
    (∀ o d s, (alGetD s.kittiesOwned o []).length = 100 →
       alGet s.kitties d = none → s.countForKitties + 1 ≤ u32Max →
       mint o d s = .inl (.TooManyOwned, s)) ∧
    (∀ a b kid s k, (alGetD s.kittiesOwned b []).length = 100 → a ≠ b →
       alGet s.kitties kid = some k → k.owner = a →
       do_transfer a b kid s = .inl (.TooManyOwned, s)) ∧
    (∀ s, Reachable s → ∀ c l, (c, l) ∈ s.kittiesOwned → l.length ≤ 100) := by
  refine ⟨?_, ?_, reachable_ownedBound⟩
  · intro o d s hlen hnone hcnt
    simp [mint, checkedAdd, hnone, hcnt, hlen]
  · intro a b kid s k hlen hab hk how
    simp [do_transfer, hab, hk, how, hlen]

/-- Witness for C8: concrete full-capacity failures and a concrete reachable
bound check. -/
theorem C8_amended_witness :
    mint 1 777 sFull = .inl (.TooManyOwned, sFull) ∧
    do_transfer 2 1 5 sFull = .inl (.TooManyOwned, sFull) ∧
    List.length [(7 : Dna)] ≤ 100 :=
  ⟨C8_amended.1 1 777 sFull (by decide) (by decide) (by decide),
   C8_amended.2.1 2 1 5 sFull { dna := 5, owner := 2, price := none }
     (by decide) (by decide) (by decide) (by decide),
   C8_amended.2.2 sEx
     (Reachable.next genesis0 sEx 0 (.create 1 7) [Event.Created 1]
       (Reachable.init []) (by decide)) 1 [7] (by decide)⟩

/-- C9: a buy whose buyer already owns the listed asset never succeeds; when
the buyer's funds cover the listed price (so the fund self-transfer
succeeds), it fails with the inner transfer's TransferToSelf error and the
observable state is unchanged. -/
theorem C9_buy_own (mk : Nat) (o : AccountId) (kid : Dna) (mp : Balance)
    (s : State) (k : Kitty) (rp : Balance) (hk : alGet s.kitties kid = some k)
    (hp : k.price = some rp) (ho : k.owner = o) (hmp : rp ≤ mp) :
    (∀ s' ev, step mk (.buy o kid mp) s ≠ .inr (s', ev)) ∧
    (rp + mk ≤ alGetD s.balances o 0 →
      step mk (.buy o kid mp) s = .inl (.TransferToSelf, s)) := by
  constructor
  · intro s' ev hcontra
    rw [step_inr] at hcontra
    obtain ⟨k2, rp2, s1, ev2, hk2, -, -, -, ht, -⟩ :=
      do_buy_kitty_inr mk o kid mp s s' ev hcontra
    obtain ⟨k3, i3, hne, -, -, -, -, -, -⟩ :=
      do_transfer_inr k2.owner o kid s1 s' ev2 ht
    rw [hk] at hk2
    exact hne (by rw [← Option.some.inj hk2, ho])
  · intro hbal
    have hnotlt : ¬ (alGetD s.balances o 0 < rp + mk) := Nat.not_lt.mpr hbal
    cases hres : do_buy_kitty mk o kid mp s with
    | inr r =>
      exfalso
      obtain ⟨s', ev⟩ := r
      obtain ⟨k2, rp2, s1, ev2, hk2, -, -, -, ht, -⟩ :=
        do_buy_kitty_inr mk o kid mp s s' ev hres
      obtain ⟨k3, i3, hne, -, -, -, -, -, -⟩ :=
        do_transfer_inr k2.owner o kid s1 s' ev2 ht
      rw [hk] at hk2
      exact hne (by rw [← Option.some.inj hk2, ho])
    | inl pr =>
      obtain ⟨e, sA⟩ := pr
      have htmp := hres
      simp [do_buy_kitty, hk, hp, Nat.not_lt.mpr hmp, transferFunds, hnotlt,
        do_transfer, ho] at htmp
      have heq : e = KittyError.TransferToSelf := htmp.1.symm
      subst heq
      exact dispatch_eq_inl _ _ _ _ hres

/-- Witness for C9: owner 1 attempts to buy their own kitty 7 in `sListed`
with sufficient funds. -/
theorem C9_buy_own_witness :
    step 10 (.buy 1 7 60) sListed ≠ .inr (sListed, []) ∧
    step 10 (.buy 1 7 60) sListed = .inl (.TransferToSelf, sListed) :=
  ⟨(C9_buy_own 10 1 7 60 sListed kListed 50 (by decide) (by decide) (by decide)
      (by decide)).1 sListed [],
   (C9_buy_own 10 1 7 60 sListed kListed 50 (by decide) (by decide) (by decide)
      (by decide)).2 (by decide)⟩

/-- C10: set-price, on success or failure, changes at most the price field
of the named asset: its dna and owner are kept, every other registry entry,
the count, the whole Ownership Index and the balances are unchanged. -/
theorem C10_set_price_frame (c : AccountId) (kid : Dna) (p : Option Balance)
    (s : State) :
    match do_set_price c kid p s with
    | .inl (_, s') => s' = s
    | .inr (s', _) =>
        s'.countForKitties = s.countForKitties ∧
        s'.kittiesOwned = s.kittiesOwned ∧
        s'.balances = s.balances ∧
        ∀ d, alGet s'.kitties d =
          if d = kid then
            (alGet s.kitties d).map
              (fun k => { dna := k.dna, owner := k.owner, price := p })
          else alGet s.kitties d := by
  cases hres : do_set_price c kid p s with
  | inl pr =>
    obtain ⟨e, s'⟩ := pr
    exact do_set_price_inl c kid p s e s' hres
  | inr r =>
    obtain ⟨s', ev⟩ := r
    obtain ⟨kitty, hkit, how, hs', -⟩ := do_set_price_inr c kid p s s' ev hres
    subst hs'
    refine ⟨rfl, rfl, rfl, ?_⟩
    intro d
    by_cases hdk : d = kid
    · subst hdk
      rw [alGet_alInsert_self, hkit]
      simp
    · rw [alGet_alInsert_ne _ _ _ _ hdk, if_neg hdk]

end KittiesPallet
